import Mathlib

/-!
Verification development for the FinOS ticker-symbol resolver.

The resolver lives in src/finos-app/api/index.py (function get_quote together
with the module-level STATIC_TICKER_MAP, TICKER_MAP, TICKER_NAMES and
load_ticker_map), with a sibling implementation in
src/tenali-llm/deployment/api.py (its get_quote).

Shallow-embedding conventions used throughout this file:
- a Python str is modelled as a list of characters (PyStr); the source only
  manipulates ASCII data, for which Char.toUpper agrees with str.upper;
- a Python dict is modelled as an insertion-ordered association list with
  unique keys (Dict); dict[k] = v that overwrites an existing key keeps the
  key's position, matching CPython's ordered dicts;
- difflib similarity scores (floats of the form 2*matches/(la+lb)) are
  modelled as exact fractions (Score) compared by cross-multiplication;
- the single live yfinance probe in the suffix stage and the HTTP fetch in
  load_ticker_map are external collaborators: their outcomes are passed in
  as explicit values (Probe, Fetch);
- a Python exception escaping the modelled fragment is represented by
  Option.none.
-/

set_option maxRecDepth 20000

/-- Python strings, modelled as lists of characters (code points). -/
abbrev PyStr := List Char

/-- Characters stripped by Python's str.strip() / str.split() with no
arguments (ASCII whitespace; the source data is ASCII-only). -/
def pyIsSpace (c : Char) : Bool :=
  c.toNat = 32 || c.toNat = 9 || c.toNat = 10 || c.toNat = 11 || c.toNat = 12 || c.toNat = 13

/-- Python str.upper() on ASCII text: Char.toUpper maps a-z to A-Z and fixes
every other character. -/
def pyUpper (s : PyStr) : PyStr := s.map Char.toUpper

/-- Python str.strip(): drop whitespace from both ends. -/
def pyStrip (s : PyStr) : PyStr :=
  ((s.dropWhile pyIsSpace).reverse.dropWhile pyIsSpace).reverse

/-- Python s.startswith(pre). -/
def pyStartsWith (s pre : PyStr) : Bool := pre.isPrefixOf s

/-- Python s.endswith(suf). -/
def pyEndsWith (s suf : PyStr) : Bool := suf.reverse.isPrefixOf s.reverse

/-- Python str.isalpha() restricted to ASCII letters (all data in the source
is ASCII). -/
def pyIsAlphaChar (c : Char) : Bool :=
  (65 ≤ c.toNat && c.toNat ≤ 90) || (97 ≤ c.toNat && c.toNat ≤ 122)

/-- Python str.isalpha(): non-empty and every character alphabetic. -/
def pyIsAlpha (s : PyStr) : Bool := !s.isEmpty && s.all pyIsAlphaChar

/-- Python substring containment: sub in s. -/
def pyContains : PyStr → PyStr → Bool
  | [], sub => sub.isEmpty
  | c :: rest, sub => sub.isPrefixOf (c :: rest) || pyContains rest sub

/-- Helper for pyWords: accumulate the current word (reversed) while walking
the string. -/
def pyWordsAux : PyStr → PyStr → List PyStr
  | [], acc => if acc.isEmpty then [] else [acc.reverse]
  | c :: cs, acc =>
    if pyIsSpace c then
      if acc.isEmpty then pyWordsAux cs [] else acc.reverse :: pyWordsAux cs []
    else pyWordsAux cs (c :: acc)

/-- Python str.split() with no arguments: split on whitespace runs and drop
empty fields (so a whitespace-only string yields the empty list). -/
def pyWords (s : PyStr) : List PyStr := pyWordsAux s []

/-- Python string comparison: lexicographic by code point. -/
def pyStrLt : PyStr → PyStr → Bool
  | [], [] => false
  | [], _ :: _ => true
  | _ :: _, [] => false
  | c :: cs, d :: ds => c.toNat < d.toNat || (c.toNat = d.toNat && pyStrLt cs ds)

/-- A CPython dict from str to str: insertion-ordered association list with
unique keys. -/
abbrev Dict := List (PyStr × PyStr)

/-- Python d[k] as an Option (none models a KeyError). -/
def dictLookup : Dict → PyStr → Option PyStr
  | [], _ => none
  | (k, v) :: rest, key => if k = key then some v else dictLookup rest key

/-- Python k in d. -/
def dictContains (m : Dict) (k : PyStr) : Bool := (dictLookup m k).isSome

/-- Python d[k] = v: overwrite in place when the key exists (keeping its
position), otherwise append at the end — CPython dict semantics. -/
def dictInsert : Dict → PyStr → PyStr → Dict
  | [], k, v => [(k, v)]
  | (k0, v0) :: rest, k, v =>
    if k0 = k then (k, v) :: rest else (k0, v0) :: dictInsert rest k v

/-- Python list(d.keys()): keys in insertion order. -/
def dictKeys (m : Dict) : List PyStr := m.map Prod.fst

/-- Notation helper turning two string literals into a dict entry. -/
def kv (k v : String) : PyStr × PyStr := (k.data, v.data)

/-- The STATIC_TICKER_MAP literal of src/finos-app/api/index.py lines 71-113.
The literal has pairwise distinct keys, so the Python dict it denotes is
exactly this association list. -/
def STATIC_TICKER_MAP : Dict := [
  kv "APPLE" "AAPL", kv "MICROSOFT" "MSFT", kv "GOOGLE" "GOOGL", kv "AMAZON" "AMZN",
  kv "TESLA" "TSLA", kv "META" "META", kv "NETFLIX" "NFLX", kv "NVIDIA" "NVDA",
  kv "AMD" "AMD", kv "INTEL" "INTC", kv "COINBASE" "COIN",
  kv "BITCOIN" "BTC-USD", kv "BTC" "BTC-USD",
  kv "ETHEREUM" "ETH-USD", kv "ETH" "ETH-USD",
  kv "SOLANA" "SOL-USD", kv "SOL" "SOL-USD",
  kv "DOGECOIN" "DOGE-USD", kv "DOGE" "DOGE-USD",
  kv "RIPPLE" "XRP-USD", kv "XRP" "XRP-USD",
  kv "CARDANO" "ADA-USD", kv "ADA" "ADA-USD",
  kv "SHIBA" "SHIB-USD", kv "SHIB" "SHIB-USD",
  kv "MATIC" "MATIC-USD", kv "POLYGON" "MATIC-USD",
  kv "RELIANCE" "RELIANCE.NS", kv "RIL" "RELIANCE.NS",
  kv "TCS" "TCS.NS", kv "TATA CONSULTANCY" "TCS.NS",
  kv "HDFC BANK" "HDFCBANK.NS", kv "HDFC" "HDFCBANK.NS",
  kv "INFOSYS" "INFY.NS", kv "INFY" "INFY.NS",
  kv "ICICI" "ICICIBANK.NS", kv "ICICI BANK" "ICICIBANK.NS",
  kv "SBI" "SBIN.NS", kv "STATE BANK" "SBIN.NS",
  kv "BHARTI AIRTEL" "BHARTIARTL.NS", kv "AIRTEL" "BHARTIARTL.NS",
  kv "ITC" "ITC.NS",
  kv "KOTAK" "KOTAKBANK.NS", kv "KOTAK BANK" "KOTAKBANK.NS",
  kv "L&T" "LT.NS", kv "LARSEN" "LT.NS",
  kv "AXIS BANK" "AXISBANK.NS", kv "AXIS" "AXISBANK.NS",
  kv "HUL" "HINDUNILVR.NS", kv "HINDUSTAN UNILEVER" "HINDUNILVR.NS",
  kv "TATA MOTORS" "TATAMOTORS.NS",
  kv "MARUTI" "MARUTI.NS",
  kv "SUN PHARMA" "SUNPHARMA.NS",
  kv "ASIAN PAINTS" "ASIANPAINT.NS",
  kv "TITAN" "TITAN.NS",
  kv "BAJAJ FINANCE" "BAJFINANCE.NS",
  kv "ULTRATECH" "ULTRACEMCO.NS",
  kv "WIPRO" "WIPRO.NS",
  kv "NESTLE" "NESTLEIND.NS",
  kv "ZOMATO" "ZOMATO.NS",
  kv "PAYTM" "PAYTM.NS",
  kv "JIO" "JIOFIN.NS", kv "JIO FINANCIAL" "JIOFIN.NS",
  kv "OLA" "OLAELEC.NS", kv "OLA ELECTRIC" "OLAELEC.NS"]

/-- One data row of the fetched NSE EQUITY_L.csv listing: the SYMBOL column
and the NAME OF COMPANY column, both as strings. -/
structure Row where
  symbol : PyStr
  name : PyStr

/-- One iteration of the row loop of load_ticker_map (index.py lines
131-140): insert SYMBOL (uppercased) and NAME OF COMPANY (uppercased), then
conditionally the first word of the name. The boolean is false when the
body raises: name.split()[0] raises IndexError on a whitespace-only company
name, after the two earlier in-place inserts have already happened. -/
def buildRow (m : Dict) (r : Row) : Dict × Bool :=
  let sym := r.symbol ++ ".NS".data
  let name := pyUpper r.name
  let m2 := dictInsert (dictInsert m (pyUpper r.symbol) sym) name sym
  match pyWords name with
  | [] => (m2, false)
  | firstWord :: _ =>
    if firstWord.length > 2 ∧ ¬ dictContains m2 firstWord then
      (dictInsert m2 firstWord sym, true)
    else (m2, true)

/-- The row loop of load_ticker_map (index.py lines 130-140), mutating the
ticker dict in place; stops early (boolean false) when a row body raises,
keeping all mutations made so far. -/
def buildLoop : Dict → List Row → Dict × Bool
  | m, [] => (m, true)
  | m, r :: rs =>
    match buildRow m r with
    | (m2, false) => (m2, false)
    | (m2, true) => buildLoop m2 rs

/-- Outcome of the HTTP fetch + CSV parse in load_ticker_map: fail models a
network error, a non-200 status, or pd.read_csv raising (all caught before
any row is processed); rows models a successfully parsed listing. -/
inductive Fetch where
  | fail
  | rows (rs : List Row)

/-- The mutable resolver state: the global TICKER_MAP dict and the global
TICKER_NAMES list of index.py lines 116-117. -/
structure ResolverState where
  tickerMap : Dict
  tickerNames : List PyStr
deriving DecidableEq

/-- The state at process start: TICKER_MAP = STATIC_TICKER_MAP.copy() and
TICKER_NAMES = list(TICKER_MAP.keys()). -/
def initialState : ResolverState :=
  ⟨STATIC_TICKER_MAP, dictKeys STATIC_TICKER_MAP⟩

/-- load_ticker_map (index.py lines 119-143). On a fetch/parse failure the
except swallows the error before any mutation; on a row-level failure the
except swallows the error after the in-place mutations already made, and
TICKER_NAMES (line 142) is not reassigned. -/
def load_ticker_map (st : ResolverState) (f : Fetch) : ResolverState :=
  if st.tickerMap.length > STATIC_TICKER_MAP.length then st
  else
    match f with
    | .fail => st
    | .rows rs =>
      match buildLoop st.tickerMap rs with
      | (m, true) => ⟨m, dictKeys m⟩
      | (m, false) => ⟨m, st.tickerNames⟩

/-- A difflib similarity score: the float 2*matches/(la+lb) modelled as an
exact fraction with positive denominator, compared by cross-multiplication
(the orderings agree, and equal computations give equal floats). -/
structure Score where
  num : Nat
  den : Nat
  denPos : 0 < den

/-- Strict comparison of two scores as real numbers. -/
def scoreLt (a b : Score) : Bool := a.num * b.den < b.num * a.den

/-- Equality of two scores as real numbers. -/
def scoreEqb (a b : Score) : Bool := a.num * b.den = b.num * a.den

/-- Non-strict comparison of two scores as real numbers. -/
def scoreLe (a b : Score) : Bool := a.num * b.den ≤ b.num * a.den

/-- difflib._calculate_ratio: 2*matched/length, and 1.0 for two empty
sequences. -/
def calcScore (matched length : Nat) : Score :=
  if h : length = 0 then ⟨1, 1, by decide⟩
  else ⟨2 * matched, length, Nat.pos_of_ne_zero h⟩

/-- The 0.5 cutoff of the finos-app fuzzy stage (index.py line 167). -/
def cutoffHalf : Score := ⟨1, 2, by decide⟩

/-- The 0.4 cutoff of the tenali-llm fuzzy stage (deployment/api.py). -/
def cutoffTwoFifths : Score := ⟨2, 5, by decide⟩

/-- Ascending list of positions of character c in b (the b2j entry built by
SequenceMatcher.__chain_b before autojunk pruning). -/
def charIndices (b : PyStr) (c : Char) : List Nat :=
  (b.enum.filter (fun p => p.2 = c)).map Prod.fst

/-- SequenceMatcher.__chain_b with isjunk=None: with autojunk, when b has at
least 200 elements, characters occurring more than 1% of the time are
dropped from b2j (the junk set stays empty, so the extension loops of
find_longest_match that test bjunk never fire). -/
def mkB2j (b : PyStr) (c : Char) : List Nat :=
  let idxs := charIndices b c
  if b.length ≥ 200 ∧ idxs.length > b.length / 100 + 1 then [] else idxs

/-- Result of find_longest_match: the block a[besti:besti+bestsize] =
b[bestj:bestj+bestsize]. -/
structure Flm where
  besti : Nat
  bestj : Nat
  bestsize : Nat

/-- The inner j-loop of find_longest_match for one row i: walk the ascending
occurrence list of a[i] in b, skipping j < blo (continue) and stopping at
the first j >= bhi (break); j2len is the previous row's run-length table and
newj2len the current row's. Python's j2len.get(j-1, 0) reads -1 (absent)
when j = 0, hence the explicit zero for j = 0. The dp state i-k+1 and
j-k+1 are written i+1-k and j+1-k (equal, since the run of length k ends at
i and j). -/
def flmInner (i : Nat) (j2len : Nat → Nat) (blo bhi : Nat) :
    List Nat → (Nat → Nat) → Flm → (Nat → Nat) × Flm
  | [], newj2len, st => (newj2len, st)
  | j :: js, newj2len, st =>
    if j < blo then flmInner i j2len blo bhi js newj2len st
    else if bhi ≤ j then (newj2len, st)
    else
      let k := (if j = 0 then 0 else j2len (j - 1)) + 1
      let newj2lenUpd := fun j0 => if j0 = j then k else newj2len j0
      let st0 := if k > st.bestsize then ⟨i + 1 - k, j + 1 - k, k⟩ else st
      flmInner i j2len blo bhi js newj2lenUpd st0

/-- The outer i-loop of find_longest_match: fold the rows alo..ahi-1,
threading the run-length table, which Python resets to an empty dict at the
start of each row and swaps in at the end of the row. -/
def flmOuter (a : PyStr) (b2j : Char → List Nat) (blo bhi : Nat) :
    List Nat → (Nat → Nat) → Flm → Flm
  | [], _, st => st
  | i :: is, j2len, st =>
    let js := match a.get? i with
      | none => []
      | some c => b2j c
    let r := flmInner i j2len blo bhi js (fun _ => 0) st
    flmOuter a b2j blo bhi is r.1 r.2

/-- The first (non-junk) extension loop of find_longest_match: grow the
block backwards while the preceding characters match. With isjunk=None the
bjunk set is empty, so the junk-gated variants of these loops never
execute. Structural recursion on a fuel initialised to besti, which is an
exact bound: every iteration requires alo < besti and decrements besti, and
at fuel 0 besti has reached 0, where the guard is false as well. -/
def extendBackAux (a b : PyStr) (alo blo : Nat) :
    Nat → Nat → Nat → Nat → Flm
  | 0, besti, bestj, bestsize => ⟨besti, bestj, bestsize⟩
  | fuel + 1, besti, bestj, bestsize =>
    if alo < besti ∧ blo < bestj ∧
        a.get? (besti - 1) = b.get? (bestj - 1) ∧
        (a.get? (besti - 1)).isSome then
      extendBackAux a b alo blo fuel (besti - 1) (bestj - 1) (bestsize + 1)
    else ⟨besti, bestj, bestsize⟩

/-- Entry point of the backward extension loop. -/
def extendBack (a b : PyStr) (alo blo : Nat) (st : Flm) : Flm :=
  extendBackAux a b alo blo st.besti st.besti st.bestj st.bestsize

/-- The second (non-junk) extension loop of find_longest_match: grow the
block forwards while the following characters match. Fuel is initialised to
ahi - (besti + bestsize), again an exact bound on the iteration count. -/
def extendFwdAux (a b : PyStr) (ahi bhi : Nat) :
    Nat → Nat → Nat → Nat → Flm
  | 0, besti, bestj, bestsize => ⟨besti, bestj, bestsize⟩
  | fuel + 1, besti, bestj, bestsize =>
    if besti + bestsize < ahi ∧ bestj + bestsize < bhi ∧
        a.get? (besti + bestsize) = b.get? (bestj + bestsize) ∧
        (a.get? (besti + bestsize)).isSome then
      extendFwdAux a b ahi bhi fuel besti bestj (bestsize + 1)
    else ⟨besti, bestj, bestsize⟩

/-- Entry point of the forward extension loop. -/
def extendFwd (a b : PyStr) (ahi bhi : Nat) (st : Flm) : Flm :=
  extendFwdAux a b ahi bhi (ahi - (st.besti + st.bestsize)) st.besti st.bestj
    st.bestsize

/-- SequenceMatcher.find_longest_match(alo, ahi, blo, bhi) on the slices
a[alo:ahi], b[blo:bhi]. -/
def findLongestMatch (a b : PyStr) (b2j : Char → List Nat)
    (alo ahi blo bhi : Nat) : Flm :=
  let st := flmOuter a b2j blo bhi (List.range' alo (ahi - alo)) (fun _ => 0)
    ⟨alo, blo, 0⟩
  extendFwd a b ahi bhi (extendBack a b alo blo st)

/-- Total size of the matching blocks collected by get_matching_blocks on
the region (alo, ahi, blo, bhi): the longest block plus, recursively, the
blocks of the two flanking regions. The fuel argument bounds the recursion
depth; each split strictly shrinks bhi - blo, so b.length + 1 fuel is never
exhausted at the top-level call. -/
def matchSum (a b : PyStr) (b2j : Char → List Nat) :
    Nat → Nat → Nat → Nat → Nat → Nat
  | 0, _, _, _, _ => 0
  | fuel + 1, alo, ahi, blo, bhi =>
    let st := findLongestMatch a b b2j alo ahi blo bhi
    if st.bestsize = 0 then 0
    else
      st.bestsize + matchSum a b b2j fuel alo st.besti blo st.bestj +
        matchSum a b b2j fuel (st.besti + st.bestsize) ahi
          (st.bestj + st.bestsize) bhi

/-- SequenceMatcher.ratio() with seq1 = a and seq2 = b: twice the total
matching-block size over the total length. -/
def seqScore (a b : PyStr) : Score :=
  calcScore (matchSum a b (mkB2j b) (b.length + 1) 0 a.length 0 b.length)
    (a.length + b.length)

/-- The availability loop of SequenceMatcher.quick_ratio(): walk a, spending
one unit of b's character budget per hit. -/
def quickLoop : PyStr → (Char → Int) → Nat → Nat
  | [], _, m => m
  | c :: rest, avail, m =>
    let numb := avail c
    quickLoop rest (fun d => if d = c then numb - 1 else avail d)
      (if numb > 0 then m + 1 else m)

/-- Number of occurrences of c in b (the fullbcount entry of quick_ratio). -/
def countChar (b : PyStr) (c : Char) : Nat := (b.filter (fun d => d = c)).length

/-- SequenceMatcher.quick_ratio(): an upper bound on ratio() using only
character multiset overlap. -/
def quickScore (a b : PyStr) : Score :=
  calcScore (quickLoop a (fun c => (countChar b c : Int)) 0) (a.length + b.length)

/-- SequenceMatcher.real_quick_ratio(): an upper bound using only lengths. -/
def realQuickScore (a b : PyStr) : Score :=
  calcScore (min a.length b.length) (a.length + b.length)

/-- The candidate filter of difflib.get_close_matches: a possibility x
survives when all three ratios reach the cutoff (evaluated cheapest
first). -/
def passesCutoff (x word : PyStr) (cutoff : Score) : Bool :=
  scoreLe cutoff (realQuickScore x word) && scoreLe cutoff (quickScore x word) &&
    scoreLe cutoff (seqScore x word)

/-- Python tuple comparison on (score, string) pairs, as used by
heapq.nlargest inside get_close_matches: compare scores first, break ties
by string comparison. -/
def pairLt (p q : Score × PyStr) : Bool :=
  scoreLt p.1 q.1 || (scoreEqb p.1 q.1 && pyStrLt p.2 q.2)

/-- Stable descending insertion: place p before the first strictly smaller
element, so earlier-inserted equal pairs stay first, matching the stable
sorted(..., reverse=True) that heapq.nlargest is specified to equal. -/
def insertDesc (p : Score × PyStr) : List (Score × PyStr) → List (Score × PyStr)
  | [] => [p]
  | q :: qs => if pairLt q p then p :: q :: qs else q :: insertDesc p qs

/-- Sort (score, string) pairs in descending tuple order, stably. -/
def sortPairsDesc (l : List (Score × PyStr)) : List (Score × PyStr) :=
  l.foldl (fun acc p => insertDesc p acc) []

/-- The scored candidate list built by the loop of get_close_matches: one
(ratio, possibility) pair per possibility that passes the cutoff filter, in
possibility order. -/
def candidatePairs (word : PyStr) (possibilities : List PyStr)
    (cutoff : Score) : List (Score × PyStr) :=
  possibilities.filterMap (fun x =>
    if passesCutoff x word cutoff then some (seqScore x word, x) else none)

/-- difflib.get_close_matches(word, possibilities, n, cutoff): keep the
possibilities whose similarity to word reaches the cutoff, and return the n
largest (score, possibility) pairs, best first. -/
def getCloseMatches (word : PyStr) (possibilities : List PyStr) (n : Nat)
    (cutoff : Score) : List PyStr :=
  ((sortPairsDesc (candidatePairs word possibilities cutoff)).take n).map
    Prod.snd

/-- Outcome of the single live verification lookup
yf.Ticker(symbol).fast_info.last_price in the suffix stage (index.py lines
176-183): price b when the attribute access succeeds and b is the Python
truthiness of the returned value, raised when it raises. -/
inductive Probe where
  | price (truthy : Bool)
  | raised

/-- Normalisation of the incoming query: request.symbol.upper().strip()
(index.py line 149). -/
def normalizeQuery (raw : PyStr) : PyStr := pyStrip (pyUpper raw)

/-- The market markers recognised by the suffix stage (index.py line 171). -/
def MARKERS : List PyStr := [".NS".data, ".BO".data, "^".data, "-".data, "=".data]

/-- True when the symbol already contains one of the recognised market
markers as a substring. -/
def hasMarker (s : PyStr) : Bool := MARKERS.any (fun x => pyContains s x)

/-- Stable insertion by length: the new element goes after all existing
elements of less-or-equal length, so equal lengths keep their earlier
relative order. -/
def insortByLen (x : PyStr) : List PyStr → List PyStr
  | [] => [x]
  | y :: ys => if x.length < y.length then x :: y :: ys else y :: insortByLen x ys

/-- Python's stable matches.sort(key=len) (index.py line 163), realised as a
stable insertion sort (any two stable sorts by the same key agree). -/
def sortByLen (l : List PyStr) : List PyStr :=
  l.foldl (fun acc x => insortByLen x acc) []

/-- The first element of minimal length in a list: what a stable sort by
length puts first. -/
def firstMinLen : List PyStr → Option PyStr
  | [] => none
  | x :: xs => some (xs.foldl (fun b y => if y.length < b.length then y else b) x)

/-- Stages 1-5 of the resolution in get_quote (index.py lines 152-168):
exact dict hit, else prefix scan picking the shortest match after a stable
sort by length, else (for queries longer than 2) the difflib fuzzy scan
with n=1 and cutoff 0.5; the query itself if nothing matched. The none
results model the KeyError / IndexError exception paths, which are
unreachable whenever every name in TICKER_NAMES is a key of TICKER_MAP. -/
def matchStage (m : Dict) (names : List PyStr) (query : PyStr) : Option PyStr :=
  match dictLookup m query with
  | some v => some v
  | none =>
    let ms := names.filter (fun k => pyStartsWith k query)
    if ¬ ms.isEmpty then
      match sortByLen ms with
      | [] => none
      | k :: _ => dictLookup m k
    else if query.length > 2 then
      match getCloseMatches query names 1 cutoffHalf with
      | [] => some query
      | best :: _ => dictLookup m best
    else some query

/-- The suffix stage of get_quote (index.py lines 170-185), applied to
whatever symbol the match stages produced: leave marker-bearing symbols
alone; probe short purely-alphabetic symbols once and append .NS when the
probe yields no truthy price or raises (the exception is swallowed); append
.NS unconditionally otherwise. -/
def suffixStage (probe : Probe) (symbol : PyStr) : PyStr :=
  if hasMarker symbol then symbol
  else if symbol.length ≤ 5 ∧ pyIsAlpha symbol then
    match probe with
    | .price true => symbol
    | .price false => symbol ++ ".NS".data
    | .raised => symbol ++ ".NS".data
  else symbol ++ ".NS".data

/-- The full symbol resolution of get_quote (index.py lines 149-185) for a
given snapshot of TICKER_MAP / TICKER_NAMES and a given outcome of the
optional verification probe: normalise, run the match stages, then the
suffix stage. none models an escaping exception (never reached from
consistent states). -/
def resolveSymbol (m : Dict) (names : List PyStr) (probe : Probe)
    (raw : PyStr) : Option PyStr :=
  (matchStage m names (normalizeQuery raw)).map (suffixStage probe)

/-- The fixed crypto shorthand list of the tenali-llm resolver
(src/tenali-llm/deployment/api.py, get_quote stage 1). -/
def TENALI_CRYPTO : List PyStr :=
  ["BTC".data, "ETH".data, "SOL".data, "ADA".data, "XRP".data, "DOGE".data]

/-- The fallback-suffix stage of the tenali-llm get_quote: append .NS to
symbols shorter than 10 characters unless they already end in .NS or .BO or
contain a caret or hyphen. -/
def tenaliFallback (symbol : PyStr) : PyStr :=
  if ¬ pyEndsWith symbol ".NS".data ∧ ¬ pyEndsWith symbol ".BO".data ∧
      ¬ pyContains symbol "^".data ∧ ¬ pyContains symbol "-".data then
    if symbol.length < 10 then symbol ++ ".NS".data else symbol
  else symbol

/-- The symbol resolution of the tenali-llm get_quote
(src/tenali-llm/deployment/api.py): crypto shorthand first, then exact dict
hit, then (for queries longer than 2 with a non-empty name list) the
difflib fuzzy scan with n=3 and cutoff 0.4 taking the best match, then the
fallback suffix stage. -/
def tenaliResolve (m : Dict) (names : List PyStr) (raw : PyStr) : Option PyStr :=
  let query := pyStrip (pyUpper raw)
  let stage : Option PyStr :=
    if query ∈ TENALI_CRYPTO then some (query ++ "-USD".data)
    else
      match dictLookup m query with
      | some v => some v
      | none =>
        if query.length > 2 ∧ ¬ names.isEmpty then
          match getCloseMatches query names 3 cutoffTwoFifths with
          | [] => some query
          | best :: _ => dictLookup m best
        else some query
  stage.map tenaliFallback

/-!
Lemma layer: facts about the dict model, the stable sorts, the fuzzy
selection and the stage functions, shared by the claim theorems below.
-/

theorem dictLookup_insert_self (m : Dict) (k v : PyStr) :
    dictLookup (dictInsert m k v) k = some v := by
  induction m with
  | nil => simp [dictInsert, dictLookup]
  | cons p rest ih =>
    obtain ⟨k0, v0⟩ := p
    by_cases h : k0 = k
    · subst h
      simp [dictInsert, dictLookup]
    · simp [dictInsert, dictLookup, h, ih]

theorem dictLookup_insert_ne (m : Dict) (k v k' : PyStr) (h : k' ≠ k) :
    dictLookup (dictInsert m k v) k' = dictLookup m k' := by
  induction m with
  | nil => simp [dictInsert, dictLookup, Ne.symm h]
  | cons p rest ih =>
    obtain ⟨k0, v0⟩ := p
    by_cases h0 : k0 = k
    · subst h0
      simp [dictInsert, dictLookup, Ne.symm h]
    · simp only [dictInsert, if_neg h0, dictLookup]
      by_cases h1 : k0 = k'
      · simp [h1]
      · simp [h1, ih]

theorem dictContains_of_mem_keys (m : Dict) (k : PyStr) (h : k ∈ dictKeys m) :
    dictContains m k = true := by
  induction m with
  | nil => simp [dictKeys] at h
  | cons p rest ih =>
    obtain ⟨k0, v0⟩ := p
    simp only [dictKeys, List.map_cons, List.mem_cons] at h
    rcases h with h | h
    · simp [dictContains, dictLookup, h.symm]
    · by_cases h0 : k0 = k
      · simp [dictContains, dictLookup, h0]
      · simpa [dictContains, dictLookup, h0] using ih h

theorem not_mem_keys_of_not_dictContains (m : Dict) (k : PyStr)
    (h : dictContains m k = false) : k ∉ dictKeys m := by
  intro hmem
  rw [dictContains_of_mem_keys m k hmem] at h
  cases h

theorem dictKeys_insert_mem (m : Dict) (k v : PyStr)
    (h : dictContains m k = true) :
    dictKeys (dictInsert m k v) = dictKeys m := by
  induction m with
  | nil => simp [dictContains, dictLookup] at h
  | cons p rest ih =>
    obtain ⟨k0, v0⟩ := p
    by_cases h0 : k0 = k
    · subst h0
      simp [dictInsert, dictKeys]
    · simp only [dictContains, dictLookup, if_neg h0] at h
      have hr := ih (by simpa [dictContains] using h)
      simp only [dictKeys] at hr ⊢
      simp [dictInsert, if_neg h0, hr]

theorem dictKeys_insert_not_mem (m : Dict) (k v : PyStr)
    (h : dictContains m k = false) :
    dictKeys (dictInsert m k v) = dictKeys m ++ [k] := by
  induction m with
  | nil => simp [dictInsert, dictKeys]
  | cons p rest ih =>
    obtain ⟨k0, v0⟩ := p
    by_cases h0 : k0 = k
    · subst h0
      simp [dictContains, dictLookup] at h
    · simp only [dictContains, dictLookup, if_neg h0] at h
      have hr := ih (by simpa [dictContains] using h)
      simp only [dictKeys] at hr ⊢
      simp [dictInsert, if_neg h0, hr]

theorem nodup_keys_insert (m : Dict) (k v : PyStr)
    (h : (dictKeys m).Nodup) : (dictKeys (dictInsert m k v)).Nodup := by
  cases hc : dictContains m k with
  | true => rw [dictKeys_insert_mem m k v hc]; exact h
  | false =>
    rw [dictKeys_insert_not_mem m k v hc]
    have hnm : k ∉ dictKeys m := not_mem_keys_of_not_dictContains m k hc
    simp [List.nodup_append, h, hnm]

theorem dictContains_insert_mono (m : Dict) (k k' v : PyStr)
    (h : dictContains m k = true) :
    dictContains (dictInsert m k' v) k = true := by
  by_cases hk : k = k'
  · subst hk
    simp [dictContains, dictLookup_insert_self]
  · simpa [dictContains, dictLookup_insert_ne m k' v k hk] using h

theorem buildRow_contains_mono (m : Dict) (r : Row) (k : PyStr)
    (h : dictContains m k = true) :
    dictContains (buildRow m r).1 k = true := by
  have h2 := dictContains_insert_mono _ k (pyUpper r.name)
    (r.symbol ++ ".NS".data)
    (dictContains_insert_mono m k (pyUpper r.symbol) (r.symbol ++ ".NS".data) h)
  simp only [buildRow]
  split
  · exact h2
  · split
    · exact dictContains_insert_mono _ k _ _ h2
    · exact h2

theorem buildRow_nodup_keys (m : Dict) (r : Row)
    (h : (dictKeys m).Nodup) : (dictKeys (buildRow m r).1).Nodup := by
  have h2 := nodup_keys_insert _ (pyUpper r.name) (r.symbol ++ ".NS".data)
    (nodup_keys_insert m (pyUpper r.symbol) (r.symbol ++ ".NS".data) h)
  simp only [buildRow]
  split
  · exact h2
  · split
    · exact nodup_keys_insert _ _ _ h2
    · exact h2

theorem buildLoop_contains_mono (rows : List Row) (m : Dict) (k : PyStr)
    (h : dictContains m k = true) :
    dictContains (buildLoop m rows).1 k = true := by
  induction rows generalizing m with
  | nil => simpa [buildLoop]
  | cons r rs ih =>
    simp only [buildLoop]
    have hr := buildRow_contains_mono m r k h
    cases hb : buildRow m r with
    | mk m2 ok =>
      rw [hb] at hr
      cases ok
      · simpa using hr
      · simpa using ih m2 hr

theorem buildLoop_nodup_keys (rows : List Row) (m : Dict)
    (h : (dictKeys m).Nodup) : (dictKeys (buildLoop m rows).1).Nodup := by
  induction rows generalizing m with
  | nil => simpa [buildLoop]
  | cons r rs ih =>
    simp only [buildLoop]
    have hr := buildRow_nodup_keys m r h
    cases hb : buildRow m r with
    | mk m2 ok =>
      rw [hb] at hr
      cases ok
      · simpa using hr
      · simpa using ih m2 hr

theorem insortByLen_perm (x : PyStr) (l : List PyStr) :
    (insortByLen x l).Perm (x :: l) := by
  induction l with
  | nil => simp [insortByLen]
  | cons y ys ih =>
    simp only [insortByLen]
    split
    · exact List.Perm.refl _
    · exact (List.Perm.cons y ih).trans (List.Perm.swap x y ys)

theorem sortByLen_perm (l : List PyStr) : (sortByLen l).Perm l := by
  suffices h : ∀ (t acc : List PyStr),
      (t.foldl (fun acc x => insortByLen x acc) acc).Perm (acc ++ t) by
    simpa using h l []
  intro t
  induction t with
  | nil => simp
  | cons x xs ih =>
    intro acc
    simp only [List.foldl_cons]
    exact (ih (insortByLen x acc)).trans
      ((List.Perm.append_right xs (insortByLen_perm x acc)).trans
        List.perm_middle.symm)

/-- The step function describing the head of a stable insertion by length:
keep the incumbent head unless the new element is strictly shorter. -/
def minOptStep (b : Option PyStr) (y : PyStr) : Option PyStr :=
  match b with
  | none => some y
  | some b0 => some (if y.length < b0.length then y else b0)

theorem head_insortByLen (x : PyStr) (l : List PyStr) :
    (insortByLen x l).head? = minOptStep l.head? x := by
  cases l with
  | nil => rfl
  | cons y ys =>
    simp only [insortByLen, List.head?_cons, minOptStep]
    split <;> simp_all

theorem head_foldl_insort (t acc : List PyStr) :
    (t.foldl (fun acc x => insortByLen x acc) acc).head? =
      t.foldl minOptStep acc.head? := by
  induction t generalizing acc with
  | nil => rfl
  | cons x xs ih =>
    simp only [List.foldl_cons]
    rw [ih (insortByLen x acc), head_insortByLen]

theorem foldl_minOptStep_some (t : List PyStr) (x : PyStr) :
    t.foldl minOptStep (some x) =
      some (t.foldl (fun b y => if y.length < b.length then y else b) x) := by
  induction t generalizing x with
  | nil => rfl
  | cons y ys ih =>
    simp only [List.foldl_cons, minOptStep]
    exact ih _

theorem head_sortByLen (l : List PyStr) : (sortByLen l).head? = firstMinLen l := by
  cases l with
  | nil => rfl
  | cons x xs =>
    rw [sortByLen, head_foldl_insort (x :: xs) []]
    simp only [List.head?_nil, List.foldl_cons]
    rw [show minOptStep none x = some x from rfl, foldl_minOptStep_some]
    rfl

theorem scoreLt_irrefl (a : Score) : scoreLt a a = false := by
  simp [scoreLt]

theorem pyStrLt_irrefl (s : PyStr) : pyStrLt s s = false := by
  induction s with
  | nil => rfl
  | cons c cs ih => simp [pyStrLt, ih]

theorem pyStrLt_asymm (s t : PyStr) (h : pyStrLt s t = true) :
    pyStrLt t s = false := by
  induction s generalizing t with
  | nil =>
    cases t with
    | nil => cases h
    | cons d ds => rfl
  | cons c cs ih =>
    cases t with
    | nil => cases h
    | cons d ds =>
      simp only [pyStrLt, Bool.or_eq_true, Bool.and_eq_true,
        decide_eq_true_eq] at h
      refine Bool.eq_false_iff.mpr ?_
      intro hcontra
      simp only [pyStrLt, Bool.or_eq_true, Bool.and_eq_true,
        decide_eq_true_eq] at hcontra
      rcases h with h | ⟨heq, hlt⟩ <;>
        rcases hcontra with h2 | ⟨h2e, h2lt⟩
      · omega
      · omega
      · omega
      · rw [ih ds hlt] at h2lt
        cases h2lt

theorem pyStrLt_trans (s t u : PyStr) (h1 : pyStrLt s t = true)
    (h2 : pyStrLt t u = true) : pyStrLt s u = true := by
  induction s generalizing t u with
  | nil =>
    cases t with
    | nil => cases h1
    | cons d ds =>
      cases u with
      | nil => cases h2
      | cons e es => rfl
  | cons c cs ih =>
    cases t with
    | nil => cases h1
    | cons d ds =>
      cases u with
      | nil => cases h2
      | cons e es =>
        simp only [pyStrLt, Bool.or_eq_true, Bool.and_eq_true,
          decide_eq_true_eq] at h1 h2 ⊢
        rcases h1 with h1 | ⟨h1e, h1lt⟩ <;> rcases h2 with h2 | ⟨h2e, h2lt⟩
        · exact Or.inl (by omega)
        · exact Or.inl (by omega)
        · exact Or.inl (by omega)
        · exact Or.inr ⟨by omega, ih ds es h1lt h2lt⟩

theorem scoreLt_trans (a b c : Score) (h1 : scoreLt a b = true)
    (h2 : scoreLt b c = true) : scoreLt a c = true := by
  simp only [scoreLt, decide_eq_true_eq] at h1 h2 ⊢
  have hstep : a.num * c.den * b.den < c.num * a.den * b.den := by
    calc a.num * c.den * b.den = a.num * b.den * c.den := by ring
      _ < b.num * a.den * c.den := mul_lt_mul_of_pos_right h1 c.denPos
      _ = b.num * c.den * a.den := by ring
      _ < c.num * b.den * a.den := mul_lt_mul_of_pos_right h2 a.denPos
      _ = c.num * a.den * b.den := by ring
  exact lt_of_mul_lt_mul_right hstep (Nat.zero_le _)

theorem scoreLt_of_lt_of_eqb (a b c : Score) (h1 : scoreLt a b = true)
    (h2 : scoreEqb b c = true) : scoreLt a c = true := by
  simp only [scoreLt, scoreEqb, decide_eq_true_eq] at h1 h2 ⊢
  have hstep : a.num * c.den * b.den < c.num * a.den * b.den := by
    calc a.num * c.den * b.den = a.num * b.den * c.den := by ring
      _ < b.num * a.den * c.den := mul_lt_mul_of_pos_right h1 c.denPos
      _ = b.num * c.den * a.den := by ring
      _ = c.num * b.den * a.den := by rw [h2]
      _ = c.num * a.den * b.den := by ring
  exact lt_of_mul_lt_mul_right hstep (Nat.zero_le _)

theorem scoreLt_of_eqb_of_lt (a b c : Score) (h1 : scoreEqb a b = true)
    (h2 : scoreLt b c = true) : scoreLt a c = true := by
  simp only [scoreLt, scoreEqb, decide_eq_true_eq] at h1 h2 ⊢
  have hstep : a.num * c.den * b.den < c.num * a.den * b.den := by
    calc a.num * c.den * b.den = a.num * b.den * c.den := by ring
      _ = b.num * a.den * c.den := by rw [h1]
      _ = b.num * c.den * a.den := by ring
      _ < c.num * b.den * a.den := mul_lt_mul_of_pos_right h2 a.denPos
      _ = c.num * a.den * b.den := by ring
  exact lt_of_mul_lt_mul_right hstep (Nat.zero_le _)

theorem scoreEqb_trans (a b c : Score) (h1 : scoreEqb a b = true)
    (h2 : scoreEqb b c = true) : scoreEqb a c = true := by
  simp only [scoreEqb, decide_eq_true_eq] at h1 h2 ⊢
  have hstep : a.num * c.den * b.den = c.num * a.den * b.den := by
    calc a.num * c.den * b.den = a.num * b.den * c.den := by ring
      _ = b.num * a.den * c.den := by rw [h1]
      _ = b.num * c.den * a.den := by ring
      _ = c.num * b.den * a.den := by rw [h2]
      _ = c.num * a.den * b.den := by ring
  exact Nat.eq_of_mul_eq_mul_right b.denPos hstep

theorem pairLt_irrefl (x : Score × PyStr) : pairLt x x = false := by
  simp [pairLt, scoreLt_irrefl, pyStrLt_irrefl]

theorem pairLt_asymm (x y : Score × PyStr) (h : pairLt x y = true) :
    pairLt y x = false := by
  simp only [pairLt, Bool.or_eq_true, Bool.and_eq_true] at h
  simp only [pairLt, Bool.or_eq_false_iff, Bool.and_eq_false_iff]
  rcases h with h | ⟨heq, hlt⟩
  · simp only [scoreLt, scoreEqb, decide_eq_true_eq] at h
    constructor
    · simp only [scoreLt, decide_eq_false_iff_not]
      omega
    · left
      simp only [scoreEqb, decide_eq_false_iff_not]
      omega
  · simp only [scoreEqb, decide_eq_true_eq] at heq
    constructor
    · simp only [scoreLt, decide_eq_false_iff_not]
      omega
    · right
      exact pyStrLt_asymm _ _ hlt

theorem pairLt_trans (x y z : Score × PyStr) (h1 : pairLt x y = true)
    (h2 : pairLt y z = true) : pairLt x z = true := by
  simp only [pairLt, Bool.or_eq_true, Bool.and_eq_true] at h1 h2 ⊢
  rcases h1 with h1 | ⟨h1e, h1lt⟩ <;> rcases h2 with h2 | ⟨h2e, h2lt⟩
  · exact Or.inl (scoreLt_trans _ _ _ h1 h2)
  · exact Or.inl (scoreLt_of_lt_of_eqb _ _ _ h1 h2e)
  · exact Or.inl (scoreLt_of_eqb_of_lt _ _ _ h1e h2)
  · exact Or.inr ⟨scoreEqb_trans _ _ _ h1e h2e, pyStrLt_trans _ _ _ h1lt h2lt⟩

theorem insertDesc_perm (p : Score × PyStr) (l : List (Score × PyStr)) :
    (insertDesc p l).Perm (p :: l) := by
  induction l with
  | nil => simp [insertDesc]
  | cons q qs ih =>
    simp only [insertDesc]
    split
    · exact List.Perm.refl _
    · exact (List.Perm.cons q ih).trans (List.Perm.swap p q qs)

theorem sortPairsDesc_perm (l : List (Score × PyStr)) :
    (sortPairsDesc l).Perm l := by
  suffices h : ∀ (t acc : List (Score × PyStr)),
      (t.foldl (fun acc p => insertDesc p acc) acc).Perm (acc ++ t) by
    simpa using h l []
  intro t
  induction t with
  | nil => simp
  | cons x xs ih =>
    intro acc
    simp only [List.foldl_cons]
    exact (ih (insertDesc x acc)).trans
      ((List.Perm.append_right xs (insertDesc_perm x acc)).trans
        List.perm_middle.symm)

theorem insertDesc_pairwise (p : Score × PyStr) (l : List (Score × PyStr))
    (hl : l.Pairwise (fun x y => pairLt x y = false)) :
    (insertDesc p l).Pairwise (fun x y => pairLt x y = false) := by
  induction l with
  | nil => simp [insertDesc]
  | cons q qs ih =>
    rcases List.pairwise_cons.mp hl with ⟨hq, hqs⟩
    simp only [insertDesc]
    split
    · next hqp =>
      refine List.pairwise_cons.mpr ⟨?_, hl⟩
      intro x hx
      rcases List.mem_cons.mp hx with rfl | hx
      · exact pairLt_asymm _ _ hqp
      · rcases hp : pairLt p x with _ | _
        · rfl
        · have := pairLt_trans q p x hqp hp
          rw [hq x hx] at this
          cases this
    · next hqp =>
      refine List.pairwise_cons.mpr ⟨?_, ih hqs⟩
      intro x hx
      have hx2 := (insertDesc_perm p qs).mem_iff.mp hx
      rcases List.mem_cons.mp hx2 with rfl | hx2
      · simpa using hqp
      · exact hq x hx2

theorem sortPairsDesc_pairwise (l : List (Score × PyStr)) :
    (sortPairsDesc l).Pairwise (fun x y => pairLt x y = false) := by
  suffices h : ∀ (t acc : List (Score × PyStr)),
      acc.Pairwise (fun x y => pairLt x y = false) →
      (t.foldl (fun acc p => insertDesc p acc) acc).Pairwise
        (fun x y => pairLt x y = false) by
    exact h l [] (by simp)
  intro t
  induction t with
  | nil => exact fun acc h => h
  | cons x xs ih =>
    intro acc hacc
    simp only [List.foldl_cons]
    exact ih _ (insertDesc_pairwise x acc hacc)

theorem mem_candidatePairs (word : PyStr) (poss : List PyStr) (cutoff : Score)
    (p : Score × PyStr) (h : p ∈ candidatePairs word poss cutoff) :
    p.2 ∈ poss ∧ passesCutoff p.2 word cutoff = true ∧ p.1 = seqScore p.2 word := by
  rcases List.mem_filterMap.mp h with ⟨x, hx, hfx⟩
  split at hfx
  · next hpass =>
    cases hfx
    exact ⟨hx, hpass, rfl⟩
  · cases hfx

theorem candidatePairs_mem_intro (word : PyStr) (poss : List PyStr)
    (cutoff : Score) (y : PyStr) (hy : y ∈ poss)
    (hpass : passesCutoff y word cutoff = true) :
    (seqScore y word, y) ∈ candidatePairs word poss cutoff := by
  exact List.mem_filterMap.mpr ⟨y, hy, by rw [if_pos hpass]⟩

theorem getCloseMatches_mem (word : PyStr) (poss : List PyStr) (n : Nat)
    (cutoff : Score) (y : PyStr) (h : y ∈ getCloseMatches word poss n cutoff) :
    y ∈ poss ∧ passesCutoff y word cutoff = true := by
  rcases List.mem_map.mp h with ⟨p, hp, rfl⟩
  have hp2 : p ∈ sortPairsDesc (candidatePairs word poss cutoff) :=
    List.mem_of_mem_take hp
  have hp3 := (sortPairsDesc_perm _).mem_iff.mp hp2
  have := mem_candidatePairs word poss cutoff p hp3
  exact ⟨this.1, this.2.1⟩

theorem getCloseMatches_head_max (word : PyStr) (poss : List PyStr) (n : Nat)
    (cutoff : Score) (best : PyStr) (rest : List PyStr)
    (h : getCloseMatches word poss n cutoff = best :: rest) :
    best ∈ poss ∧ passesCutoff best word cutoff = true ∧
      ∀ y ∈ poss, passesCutoff y word cutoff = true →
        pairLt (seqScore best word, best) (seqScore y word, y) = false := by
  have hbm : best ∈ getCloseMatches word poss n cutoff := by
    rw [h]
    exact List.mem_cons_self best rest
  have hbase := getCloseMatches_mem word poss n cutoff best hbm
  refine ⟨hbase.1, hbase.2, ?_⟩
  intro y hy hpass
  cases hs : sortPairsDesc (candidatePairs word poss cutoff) with
  | nil =>
    rw [getCloseMatches, hs] at h
    simp at h
  | cons p0 tl =>
    have hhead : p0.2 = best := by
      rw [getCloseMatches, hs] at h
      cases n with
      | zero => simp at h
      | succ n0 =>
        simp only [List.take_succ_cons, List.map_cons, List.cons.injEq] at h
        exact h.1
    have hp0mem : p0 ∈ candidatePairs word poss cutoff :=
      (sortPairsDesc_perm _).mem_iff.mp (hs ▸ List.mem_cons_self p0 tl)
    have hp0 := mem_candidatePairs word poss cutoff p0 hp0mem
    have hp0eq : p0 = (seqScore best word, best) := by
      rcases p0 with ⟨ps, px⟩
      simp only at hhead
      subst hhead
      simp only [Prod.mk.injEq]
      exact ⟨hp0.2.2, trivial⟩
    have hymem : (seqScore y word, y) ∈
        sortPairsDesc (candidatePairs word poss cutoff) :=
      (sortPairsDesc_perm _).mem_iff.mpr
        (candidatePairs_mem_intro word poss cutoff y hy hpass)
    rw [hs] at hymem
    rcases List.mem_cons.mp hymem with hy0 | hy0
    · rw [hp0eq] at hy0
      rw [← hy0]
      exact pairLt_irrefl _
    · have hpw := sortPairsDesc_pairwise (candidatePairs word poss cutoff)
      rw [hs] at hpw
      rcases List.pairwise_cons.mp hpw with ⟨hhd, _⟩
      have := hhd _ hy0
      rw [hp0eq] at this
      exact this

theorem firstMinLen_mem (l : List PyStr) (k : PyStr)
    (h : firstMinLen l = some k) : k ∈ l := by
  have hh := head_sortByLen l
  rw [h] at hh
  have : k ∈ sortByLen l := by
    cases hs : sortByLen l with
    | nil => simp [hs] at hh
    | cons a rest =>
      simp only [hs, List.head?_cons, Option.some.injEq] at hh
      simp [hs, hh]
  exact (sortByLen_perm l).mem_iff.mp this

theorem matchStage_exact (m : Dict) (names : List PyStr) (q v : PyStr)
    (h : dictLookup m q = some v) : matchStage m names q = some v := by
  simp only [matchStage, h]

theorem matchStage_prefix (m : Dict) (names : List PyStr) (q : PyStr)
    (h : dictLookup m q = none)
    (hne : names.filter (fun k => pyStartsWith k q) ≠ []) :
    ∃ k, firstMinLen (names.filter (fun k => pyStartsWith k q)) = some k ∧
      matchStage m names q = dictLookup m k := by
  have hemp : (names.filter (fun k => pyStartsWith k q)).isEmpty = false := by
    simpa [List.isEmpty_iff] using hne
  have hsne : sortByLen (names.filter (fun k => pyStartsWith k q)) ≠ [] := by
    intro hcon
    exact hne ((sortByLen_perm _).symm.trans (hcon ▸ List.Perm.refl [])).eq_nil
  cases hs : sortByLen (names.filter (fun k => pyStartsWith k q)) with
  | nil => exact absurd hs hsne
  | cons k rest =>
    refine ⟨k, ?_, ?_⟩
    · rw [← head_sortByLen, hs, List.head?_cons]
    · simp only [matchStage, h, hemp, hs]
      simp

theorem matchStage_fuzzy (m : Dict) (names : List PyStr) (q best : PyStr)
    (rest : List PyStr) (h : dictLookup m q = none)
    (hpre : names.filter (fun k => pyStartsWith k q) = [])
    (hlen : 2 < q.length)
    (hgcm : getCloseMatches q names 1 cutoffHalf = best :: rest) :
    matchStage m names q = dictLookup m best := by
  simp only [matchStage, h, hpre, List.isEmpty_nil, if_pos hlen, hgcm]
  simp

theorem matchStage_fallthrough (m : Dict) (names : List PyStr) (q : PyStr)
    (h : dictLookup m q = none)
    (hpre : names.filter (fun k => pyStartsWith k q) = [])
    (hrest : q.length ≤ 2 ∨ getCloseMatches q names 1 cutoffHalf = []) :
    matchStage m names q = some q := by
  rcases hrest with hlen | hgcm
  · simp only [matchStage, h, hpre, List.isEmpty_nil,
      if_neg (by omega : ¬ q.length > 2)]
    simp
  · by_cases hlen : 2 < q.length
    · simp only [matchStage, h, hpre, List.isEmpty_nil, if_pos hlen, hgcm]
      simp
    · simp only [matchStage, h, hpre, List.isEmpty_nil, if_neg hlen]
      simp

theorem matchStage_isSome (m : Dict) (names : List PyStr) (q : PyStr)
    (hinv : ∀ k ∈ names, dictContains m k = true) :
    ∃ s, matchStage m names q = some s := by
  cases hq : dictLookup m q with
  | some v => exact ⟨v, matchStage_exact m names q v hq⟩
  | none =>
    by_cases hne : names.filter (fun k => pyStartsWith k q) = []
    · by_cases hlen : 2 < q.length
      · cases hgcm : getCloseMatches q names 1 cutoffHalf with
        | nil =>
          exact ⟨q, matchStage_fallthrough m names q hq hne (Or.inr hgcm)⟩
        | cons best rest =>
          have hbest := getCloseMatches_mem q names 1 cutoffHalf best
            (hgcm ▸ List.mem_cons_self best rest)
          have hcont := hinv best hbest.1
          cases hv : dictLookup m best with
          | none => simp [dictContains, hv] at hcont
          | some v =>
            refine ⟨v, ?_⟩
            rw [matchStage_fuzzy m names q best rest hq hne hlen hgcm, hv]
      · exact ⟨q, matchStage_fallthrough m names q hq hne
          (Or.inl (by omega))⟩
    · rcases matchStage_prefix m names q hq hne with ⟨k, hk, hm⟩
      have hkmem : k ∈ names :=
        (List.mem_filter.mp (firstMinLen_mem _ k hk)).1
      have hcont := hinv k hkmem
      cases hv : dictLookup m k with
      | none => simp [dictContains, hv] at hcont
      | some v => exact ⟨v, by rw [hm, hv]⟩

theorem suffixStage_marker (p : Probe) (s : PyStr) (h : hasMarker s = true) :
    suffixStage p s = s := by
  simp only [suffixStage, h, if_pos]

theorem suffixStage_ne_nil (p : Probe) (s : PyStr) : suffixStage p s ≠ [] := by
  unfold suffixStage
  split
  · next hmark =>
    intro hnil
    rw [hnil] at hmark
    exact absurd hmark (by decide)
  · split
    · next halpha =>
      cases p with
      | price b =>
        cases b
        · simp
        · intro hnil
          simp at hnil
          rw [hnil] at halpha
          exact absurd halpha.2 (by decide)
      | raised => simp
    · simp

theorem resolveSymbol_eq_map (m : Dict) (names : List PyStr) (probe : Probe)
    (raw : PyStr) :
    resolveSymbol m names probe raw =
      (matchStage m names (normalizeQuery raw)).map (suffixStage probe) := rfl

/-- Helper shared by several claims: an exact directory hit whose mapped
symbol already carries a market marker is returned unchanged. -/
theorem resolveSymbol_exact_marker (m : Dict) (names : List PyStr)
    (probe : Probe) (raw v : PyStr)
    (h : dictLookup m (normalizeQuery raw) = some v)
    (hm : hasMarker v = true) :
    resolveSymbol m names probe raw = some v := by
  rw [resolveSymbol_eq_map, matchStage_exact _ _ _ _ h]
  simp [suffixStage_marker probe v hm]

/-!
Claim theorems.
-/

/-- C1 (amended): when the normalized query is a key of the directory, the
prefix and fuzzy stages are skipped and resolution selects exactly that
key's mapped symbol; the suffix-inference stage still runs on the mapped
symbol, and the mapped symbol is returned verbatim whenever it contains a
recognized market marker. -/
theorem exactMatch_authoritative (m : Dict) (names : List PyStr)
    (probe : Probe) (raw v : PyStr)
    (h : dictLookup m (normalizeQuery raw) = some v) :
    resolveSymbol m names probe raw = some (suffixStage probe v) ∧
      (hasMarker v = true → resolveSymbol m names probe raw = some v) := by
  have hm := matchStage_exact m names (normalizeQuery raw) v h
  constructor
  · rw [resolveSymbol_eq_map, hm]
    rfl
  · intro hmark
    exact resolveSymbol_exact_marker m names probe raw v h hmark

/-- C1 witness: the exact directory hit RELIANCE resolves to RELIANCE.NS,
which carries a marker and is returned verbatim. -/
theorem exactMatch_authoritative_witness :
    resolveSymbol STATIC_TICKER_MAP (dictKeys STATIC_TICKER_MAP) Probe.raised
        "RELIANCE".data =
      some (suffixStage Probe.raised "RELIANCE.NS".data) ∧
      (hasMarker "RELIANCE.NS".data = true →
        resolveSymbol STATIC_TICKER_MAP (dictKeys STATIC_TICKER_MAP)
          Probe.raised "RELIANCE".data = some "RELIANCE.NS".data) :=
  exactMatch_authoritative STATIC_TICKER_MAP (dictKeys STATIC_TICKER_MAP)
    Probe.raised "RELIANCE".data "RELIANCE.NS".data (by decide)

/-- C1 counterexample: APPLE is an exact key of the static directory mapped
to AAPL, yet when the verification probe raises, resolution returns AAPL.NS
rather than the mapped symbol AAPL — the suffix stage is applied even to
exact matches, contradicting the claim as stated. -/
theorem exactMatch_counterexample :
    dictLookup STATIC_TICKER_MAP (normalizeQuery "APPLE".data) =
        some "AAPL".data ∧
      resolveSymbol STATIC_TICKER_MAP (dictKeys STATIC_TICKER_MAP)
        Probe.raised "APPLE".data = some "AAPL.NS".data ∧
      "AAPL.NS".data ≠ "AAPL".data := by
  refine ⟨by decide, by decide, by decide⟩

/-- C2: for every non-empty query, from any state whose alias list only
holds directory keys (an invariant of all reachable states), resolution
returns some non-empty symbol string: no exception escapes and there is no
not-found outcome. -/
theorem resolution_total_nonempty (m : Dict) (names : List PyStr)
    (probe : Probe) (raw : PyStr) (_hraw : raw ≠ [])
    (hinv : ∀ k ∈ names, dictContains m k = true) :
    ∃ s, resolveSymbol m names probe raw = some s ∧ s ≠ [] := by
  rcases matchStage_isSome m names (normalizeQuery raw) hinv with ⟨s0, hs0⟩
  refine ⟨suffixStage probe s0, ?_, suffixStage_ne_nil probe s0⟩
  rw [resolveSymbol_eq_map, hs0]
  rfl

/-- C2 witness: an unmatched three-letter query against a one-entry
directory still resolves to some non-empty symbol. -/
theorem resolution_total_nonempty_witness :
    ∃ s, resolveSymbol [kv "RELIANCE" "RELIANCE.NS"] ["RELIANCE".data]
      Probe.raised "QZX".data = some s ∧ s ≠ [] :=
  resolution_total_nonempty [kv "RELIANCE" "RELIANCE.NS"] ["RELIANCE".data]
    Probe.raised "QZX".data (by decide) (by decide)

/-- C3 (amended): when the query is not an exact key but some aliases start
with it, resolution selects the first minimal-length such alias in
alias-index order (deterministically, being a function of the snapshot) and
returns its mapped symbol passed through the suffix-inference stage, which
leaves it unchanged exactly when it already carries a market marker. -/
theorem prefixMatch_shortest_first (m : Dict) (names : List PyStr)
    (probe : Probe) (raw : PyStr)
    (h : dictLookup m (normalizeQuery raw) = none)
    (hne : names.filter (fun k => pyStartsWith k (normalizeQuery raw)) ≠ []) :
    ∃ k, firstMinLen (names.filter
        (fun k => pyStartsWith k (normalizeQuery raw))) = some k ∧
      resolveSymbol m names probe raw =
        (dictLookup m k).map (suffixStage probe) := by
  rcases matchStage_prefix m names (normalizeQuery raw) h hne with ⟨k, hk, hm⟩
  exact ⟨k, hk, by rw [resolveSymbol_eq_map, hm]⟩

/-- C3 witness: RELI prefix-matches only RELIANCE and resolves to its
mapped symbol RELIANCE.NS. -/
theorem prefixMatch_shortest_first_witness :
    ∃ k, firstMinLen ((dictKeys STATIC_TICKER_MAP).filter
        (fun k2 => pyStartsWith k2 (normalizeQuery "RELI".data))) = some k ∧
      resolveSymbol STATIC_TICKER_MAP (dictKeys STATIC_TICKER_MAP)
        Probe.raised "RELI".data =
        (dictLookup STATIC_TICKER_MAP k).map (suffixStage Probe.raised) :=
  prefixMatch_shortest_first STATIC_TICKER_MAP (dictKeys STATIC_TICKER_MAP)
    Probe.raised "RELI".data (by decide) (by decide)

/-- C3 counterexample: APPL prefix-matches APPLE, whose mapped symbol AAPL
has no marker; with a falsy probe resolution returns AAPL.NS, not the
mapped symbol AAPL — the claim's "returns the mapped symbol" fails as
stated. -/
theorem prefixMatch_counterexample :
    dictLookup STATIC_TICKER_MAP (normalizeQuery "APPL".data) = none ∧
      firstMinLen ((dictKeys STATIC_TICKER_MAP).filter
        (fun k => pyStartsWith k (normalizeQuery "APPL".data))) =
        some "APPLE".data ∧
      dictLookup STATIC_TICKER_MAP "APPLE".data = some "AAPL".data ∧
      resolveSymbol STATIC_TICKER_MAP (dictKeys STATIC_TICKER_MAP)
        (Probe.price false) "APPL".data = some "AAPL.NS".data ∧
      "AAPL.NS".data ≠ "AAPL".data := by
  refine ⟨by decide, by decide, by decide, by decide, by decide⟩

/-- C4: for a normalized query with no exact, prefix, or fuzzy match and no
recognized marker: when it is at most 5 characters and purely alphabetic,
the single probe decides the outcome — kept unchanged on a truthy price,
suffixed with .NS on a falsy price or a raised (and swallowed) probe;
otherwise .NS is appended for every probe outcome alike, i.e. without
consulting the probe. -/
theorem suffix_inference_unmatched (m : Dict) (names : List PyStr)
    (raw : PyStr)
    (hq : dictLookup m (normalizeQuery raw) = none)
    (hpre : names.filter (fun k => pyStartsWith k (normalizeQuery raw)) = [])
    (hfuzzy : 2 < (normalizeQuery raw).length →
      getCloseMatches (normalizeQuery raw) names 1 cutoffHalf = [])
    (hmark : hasMarker (normalizeQuery raw) = false) :
    ((normalizeQuery raw).length ≤ 5 ∧ pyIsAlpha (normalizeQuery raw) = true →
      resolveSymbol m names (Probe.price true) raw =
          some (normalizeQuery raw) ∧
        resolveSymbol m names (Probe.price false) raw =
          some (normalizeQuery raw ++ ".NS".data) ∧
        resolveSymbol m names Probe.raised raw =
          some (normalizeQuery raw ++ ".NS".data)) ∧
    (¬ ((normalizeQuery raw).length ≤ 5 ∧
        pyIsAlpha (normalizeQuery raw) = true) →
      ∀ probe, resolveSymbol m names probe raw =
        some (normalizeQuery raw ++ ".NS".data)) := by
  have hms : matchStage m names (normalizeQuery raw) =
      some (normalizeQuery raw) := by
    by_cases hlen : 2 < (normalizeQuery raw).length
    · exact matchStage_fallthrough _ _ _ hq hpre (Or.inr (hfuzzy hlen))
    · exact matchStage_fallthrough _ _ _ hq hpre (Or.inl (by omega))
  constructor
  · intro halpha
    have hbody : ∀ pr, suffixStage pr (normalizeQuery raw) =
        match pr with
        | Probe.price true => normalizeQuery raw
        | Probe.price false => normalizeQuery raw ++ ".NS".data
        | Probe.raised => normalizeQuery raw ++ ".NS".data := by
      intro pr
      unfold suffixStage
      rw [if_neg (by simp [hmark]), if_pos halpha]
    refine ⟨?_, ?_, ?_⟩ <;> rw [resolveSymbol_eq_map, hms] <;> simp [hbody]
  · intro hnalpha probe
    have hbody : suffixStage probe (normalizeQuery raw) =
        normalizeQuery raw ++ ".NS".data := by
      unfold suffixStage
      rw [if_neg (by simp [hmark]), if_neg hnalpha]
    rw [resolveSymbol_eq_map, hms]
    simp [hbody]

/-- C4 witness: the unmatched short alphabetic query ZZZZ is kept on a
truthy probe and suffixed on a falsy or raised probe. -/
theorem suffix_inference_unmatched_witness :
    resolveSymbol [kv "RELIANCE" "RELIANCE.NS"] ["RELIANCE".data]
        (Probe.price true) "ZZZZ".data = some (normalizeQuery "ZZZZ".data) ∧
      resolveSymbol [kv "RELIANCE" "RELIANCE.NS"] ["RELIANCE".data]
        (Probe.price false) "ZZZZ".data =
        some (normalizeQuery "ZZZZ".data ++ ".NS".data) ∧
      resolveSymbol [kv "RELIANCE" "RELIANCE.NS"] ["RELIANCE".data]
        Probe.raised "ZZZZ".data =
        some (normalizeQuery "ZZZZ".data ++ ".NS".data) :=
  (suffix_inference_unmatched [kv "RELIANCE" "RELIANCE.NS"]
    ["RELIANCE".data] "ZZZZ".data (by decide) (by decide)
    (fun _ => by decide) (by decide)).1 (by decide)

/-- C5: a query containing a recognized market marker that has no exact,
prefix, or fuzzy alias match is returned exactly as normalized, for every
probe outcome (no probe is consulted, no suffix appended). -/
theorem marker_query_unchanged (m : Dict) (names : List PyStr)
    (probe : Probe) (raw : PyStr)
    (hmark : hasMarker (normalizeQuery raw) = true)
    (hq : dictLookup m (normalizeQuery raw) = none)
    (hpre : names.filter (fun k => pyStartsWith k (normalizeQuery raw)) = [])
    (hfuzzy : 2 < (normalizeQuery raw).length →
      getCloseMatches (normalizeQuery raw) names 1 cutoffHalf = []) :
    resolveSymbol m names probe raw = some (normalizeQuery raw) := by
  have hms : matchStage m names (normalizeQuery raw) =
      some (normalizeQuery raw) := by
    by_cases hlen : 2 < (normalizeQuery raw).length
    · exact matchStage_fallthrough _ _ _ hq hpre (Or.inr (hfuzzy hlen))
    · exact matchStage_fallthrough _ _ _ hq hpre (Or.inl (by omega))
  rw [resolveSymbol_eq_map, hms]
  simp [suffixStage_marker probe _ hmark]

/-- C5 witness: BTC-USD, unmatched in a one-entry directory, is returned
unchanged even when the probe would raise. -/
theorem marker_query_unchanged_witness :
    resolveSymbol [kv "RELIANCE" "RELIANCE.NS"] ["RELIANCE".data]
      Probe.raised "BTC-USD".data = some (normalizeQuery "BTC-USD".data) :=
  marker_query_unchanged [kv "RELIANCE" "RELIANCE.NS"] ["RELIANCE".data]
    Probe.raised "BTC-USD".data (by decide) (by decide) (by decide)
    (fun _ => by decide)

/-- C6 (amended): with no exact or prefix match, queries of length at most
2 skip the fuzzy scan and fall directly to suffix inference; for longer
queries with a candidate above the cutoff, resolution selects the head of
get_close_matches — a candidate that no other passing alias strictly beats
in (score, alias) tuple order, so score ties go to the lexicographically
greatest alias, not the first-seen one — and returns its mapped symbol
passed through suffix inference. -/
theorem fuzzy_gating_selection (m : Dict) (names : List PyStr)
    (probe : Probe) (raw : PyStr)
    (hq : dictLookup m (normalizeQuery raw) = none)
    (hpre : names.filter (fun k => pyStartsWith k (normalizeQuery raw)) = []) :
    ((normalizeQuery raw).length ≤ 2 →
      resolveSymbol m names probe raw =
        some (suffixStage probe (normalizeQuery raw))) ∧
    (2 < (normalizeQuery raw).length →
      ∀ best rest,
        getCloseMatches (normalizeQuery raw) names 1 cutoffHalf =
          best :: rest →
        resolveSymbol m names probe raw =
            (dictLookup m best).map (suffixStage probe) ∧
          best ∈ names ∧
          passesCutoff best (normalizeQuery raw) cutoffHalf = true ∧
          ∀ y ∈ names, passesCutoff y (normalizeQuery raw) cutoffHalf = true →
            pairLt (seqScore best (normalizeQuery raw), best)
              (seqScore y (normalizeQuery raw), y) = false) := by
  constructor
  · intro hlen
    rw [resolveSymbol_eq_map,
      matchStage_fallthrough _ _ _ hq hpre (Or.inl hlen)]
    rfl
  · intro hlen best rest hgcm
    have hmax := getCloseMatches_head_max _ names 1 cutoffHalf best rest hgcm
    refine ⟨?_, hmax.1, hmax.2.1, hmax.2.2⟩
    rw [resolveSymbol_eq_map,
      matchStage_fuzzy m names _ best rest hq hpre hlen hgcm]

/-- C6 witness: for query ABC against aliases ABD and ABE (equal scores),
the fuzzy stage resolves through the selected head of get_close_matches. -/
theorem fuzzy_gating_selection_witness :
    resolveSymbol [kv "ABD" "X.NS", kv "ABE" "Y.NS"]
        ["ABD".data, "ABE".data] Probe.raised "ABC".data =
      (dictLookup [kv "ABD" "X.NS", kv "ABE" "Y.NS"] "ABE".data).map
        (suffixStage Probe.raised) :=
  ((fuzzy_gating_selection [kv "ABD" "X.NS", kv "ABE" "Y.NS"]
    ["ABD".data, "ABE".data] Probe.raised "ABC".data (by decide)
    (by decide)).2 (by decide) "ABE".data [] (by decide)).1

/-- C6 counterexample: ABD and ABE score identically against ABC and both
pass the cutoff, ABD comes first in the alias index, yet resolution returns
ABE's symbol Y.NS — ties are not broken by first-seen alias order. -/
theorem fuzzy_tiebreak_counterexample :
    scoreEqb (seqScore "ABD".data "ABC".data)
        (seqScore "ABE".data "ABC".data) = true ∧
      passesCutoff "ABD".data "ABC".data cutoffHalf = true ∧
      resolveSymbol [kv "ABD" "X.NS", kv "ABE" "Y.NS"]
        ["ABD".data, "ABE".data] Probe.raised "ABC".data =
        some "Y.NS".data ∧
      dictLookup [kv "ABD" "X.NS", kv "ABE" "Y.NS"] "ABD".data =
        some "X.NS".data ∧
      "Y.NS".data ≠ "X.NS".data := by
  refine ⟨by decide, by decide, by decide, by decide, by decide⟩

/-- C7 (amended): a fetch or CSV-level parse failure leaves the state
exactly as it was; a fully successful rebuild reassigns the alias index to
the key list of the rebuilt directory; and every build outcome — including
a row-level failure, which keeps its partial in-place mutations and leaves
the alias index stale — preserves the invariant that every indexed alias
is a key of the directory. -/
theorem rebuild_failure_semantics :
    (∀ st, load_ticker_map st Fetch.fail = st) ∧
    (∀ st rs m2, ¬ st.tickerMap.length > STATIC_TICKER_MAP.length →
      buildLoop st.tickerMap rs = (m2, true) →
      load_ticker_map st (Fetch.rows rs) = ⟨m2, dictKeys m2⟩) ∧
    (∀ st f, (∀ k ∈ st.tickerNames, dictContains st.tickerMap k = true) →
      ∀ k ∈ (load_ticker_map st f).tickerNames,
        dictContains (load_ticker_map st f).tickerMap k = true) := by
  refine ⟨?_, ?_, ?_⟩
  · intro st
    unfold load_ticker_map
    split
    · rfl
    · rfl
  · intro st rs m2 hguard hb
    simp only [load_ticker_map, if_neg hguard, hb]
  · intro st f hinv k hk
    by_cases hguard : st.tickerMap.length > STATIC_TICKER_MAP.length
    · simp only [load_ticker_map, if_pos hguard] at hk ⊢
      exact hinv k hk
    · cases f with
      | fail =>
        simp only [load_ticker_map, if_neg hguard] at hk ⊢
        exact hinv k hk
      | rows rs =>
        simp only [load_ticker_map, if_neg hguard] at hk ⊢
        cases hb : buildLoop st.tickerMap rs with
        | mk m2 ok =>
          rw [hb] at hk
          cases ok
          · have hk2 : k ∈ st.tickerNames := hk
            have hmono := buildLoop_contains_mono rs st.tickerMap k (hinv k hk2)
            rw [hb] at hmono
            exact hmono
          · have hk2 : k ∈ dictKeys m2 := hk
            exact dictContains_of_mem_keys m2 k hk2

/-- C7 witness: a failed fetch leaves a one-entry state untouched and
preserves the index-subset invariant; a successful one-row build from the
empty state publishes the rebuilt directory with its key list. -/
theorem rebuild_failure_semantics_witness :
    load_ticker_map ⟨[kv "RELIANCE" "RELIANCE.NS"], ["RELIANCE".data]⟩
        Fetch.fail = ⟨[kv "RELIANCE" "RELIANCE.NS"], ["RELIANCE".data]⟩ ∧
      dictContains (load_ticker_map
        ⟨[kv "RELIANCE" "RELIANCE.NS"], ["RELIANCE".data]⟩
        Fetch.fail).tickerMap "RELIANCE".data = true ∧
      load_ticker_map ⟨[], []⟩
          (Fetch.rows [⟨"ZED".data, "Zed Company".data⟩]) =
        ⟨[kv "ZED" "ZED.NS", kv "ZED COMPANY" "ZED.NS"],
          dictKeys [kv "ZED" "ZED.NS", kv "ZED COMPANY" "ZED.NS"]⟩ :=
  ⟨rebuild_failure_semantics.1 _,
    rebuild_failure_semantics.2.2 _ Fetch.fail (by decide) "RELIANCE".data
      (by decide),
    rebuild_failure_semantics.2.1 ⟨[], []⟩
      [⟨"ZED".data, "Zed Company".data⟩]
      [kv "ZED" "ZED.NS", kv "ZED COMPANY" "ZED.NS"] (by decide) (by decide)⟩

/-- C7 counterexample: a row whose company name is a single space makes
name.split()[0] raise after two in-place inserts; the swallowed exception
leaves the directory extended by those inserts while the alias index is not
rebuilt — the state is neither unchanged nor in sync. -/
theorem rebuild_partial_counterexample :
    (load_ticker_map initialState
        (Fetch.rows [⟨"ZZZ2".data, " ".data⟩])).tickerMap ≠
      initialState.tickerMap ∧
    (load_ticker_map initialState
        (Fetch.rows [⟨"ZZZ2".data, " ".data⟩])).tickerNames ≠
      dictKeys (load_ticker_map initialState
        (Fetch.rows [⟨"ZZZ2".data, " ".data⟩])).tickerMap := by
  refine ⟨by decide, by decide⟩

/-- C8: dict writes follow last-write-wins — a second write to the same
alias key overwrites the first and leaves every other key untouched — and
the row loop preserves key uniqueness, which the static directory satisfies,
so each alias maps to exactly one symbol at every instant. -/
theorem last_write_wins_unique_keys :
    (∀ m k v, dictLookup (dictInsert m k v) k = some v) ∧
    (∀ m k v k2, k2 ≠ k →
      dictLookup (dictInsert m k v) k2 = dictLookup m k2) ∧
    (∀ m rs, (dictKeys m).Nodup → (dictKeys (buildLoop m rs).1).Nodup) ∧
    (dictKeys STATIC_TICKER_MAP).Nodup := by
  refine ⟨dictLookup_insert_self, dictLookup_insert_ne, ?_, by decide⟩
  intro m rs h
  exact buildLoop_nodup_keys rs m h

/-- C8 witness: overwriting BTC keeps one binding with the newer value,
leaves ETH lookups unaffected, and a build step keeps keys unique. -/
theorem last_write_wins_unique_keys_witness :
    dictLookup (dictInsert [kv "BTC" "BTC-USD"] "BTC".data "BTC2".data)
        "BTC".data = some "BTC2".data ∧
      dictLookup (dictInsert [kv "BTC" "BTC-USD", kv "ETH" "ETH-USD"]
        "BTC".data "BTC2".data) "ETH".data = some "ETH-USD".data ∧
      (dictKeys (buildLoop [kv "BTC" "BTC-USD"]
        [⟨"ZED".data, "Zed Company".data⟩]).1).Nodup :=
  ⟨last_write_wins_unique_keys.1 [kv "BTC" "BTC-USD"] "BTC".data "BTC2".data,
    last_write_wins_unique_keys.2.1 [kv "BTC" "BTC-USD", kv "ETH" "ETH-USD"]
      "BTC".data "BTC2".data "ETH".data (by decide),
    last_write_wins_unique_keys.2.2.1 [kv "BTC" "BTC-USD"]
      [⟨"ZED".data, "Zed Company".data⟩] (by decide)⟩

/-- C9: on each of the six crypto shorthands, the tenali-llm resolver's
explicit shorthand check (with any directory snapshot) and the finos-app
resolver's seeded static directory (with any probe outcome) both return the
same canonical dash-USD symbol. -/
theorem crypto_shorthand_equivalence (q : PyStr) (hq : q ∈ TENALI_CRYPTO)
    (tm : Dict) (tnames : List PyStr) (probe : Probe) :
    tenaliResolve tm tnames q = some (q ++ "-USD".data) ∧
    resolveSymbol STATIC_TICKER_MAP (dictKeys STATIC_TICKER_MAP) probe q =
      some (q ++ "-USD".data) := by
  simp only [TENALI_CRYPTO, List.mem_cons, List.not_mem_nil, or_false] at hq
  rcases hq with rfl | rfl | rfl | rfl | rfl | rfl <;>
    exact ⟨rfl,
      resolveSymbol_exact_marker _ _ probe _ _ (by decide) (by decide)⟩

/-- C9 witness: BTC maps to BTC-USD under both resolvers. -/
theorem crypto_shorthand_equivalence_witness :
    tenaliResolve [] [] "BTC".data = some ("BTC".data ++ "-USD".data) ∧
    resolveSymbol STATIC_TICKER_MAP (dictKeys STATIC_TICKER_MAP) Probe.raised
      "BTC".data = some ("BTC".data ++ "-USD".data) :=
  crypto_shorthand_equivalence "BTC".data (by decide) [] [] Probe.raised

/-- C10 (amended): an empty or whitespace-only input is not rejected: the
normalized query is empty, the prefix scan matches every alias, and
resolution selects the first minimal-length alias of the index and returns
its mapped symbol passed through the suffix-inference stage (which may
append .NS when that symbol carries no market marker). -/
theorem empty_query_shortest_alias (m : Dict) (names : List PyStr)
    (probe : Probe) (raw : PyStr)
    (hnorm : normalizeQuery raw = [])
    (hq : dictLookup m [] = none)
    (hne : names ≠ [])
    (hinv : ∀ k ∈ names, dictContains m k = true) :
    ∃ k v, firstMinLen names = some k ∧ dictLookup m k = some v ∧
      resolveSymbol m names probe raw = some (suffixStage probe v) := by
  have hfilter : names.filter
      (fun k => pyStartsWith k (normalizeQuery raw)) = names := by
    rw [hnorm]
    apply List.filter_eq_self.mpr
    intro a ha
    cases a <;> rfl
  rcases matchStage_prefix m names (normalizeQuery raw)
      (by rw [hnorm]; exact hq) (by rw [hfilter]; exact hne) with ⟨k, hk, hm⟩
  rw [hfilter] at hk
  have hkmem := firstMinLen_mem names k hk
  have hcont := hinv k hkmem
  cases hv : dictLookup m k with
  | none => simp [dictContains, hv] at hcont
  | some v =>
    refine ⟨k, v, hk, hv, ?_⟩
    rw [resolveSymbol_eq_map, hm, hv]
    rfl

/-- C10 witness: a whitespace-only query against the static directory
selects AMD, its first shortest alias, and with a truthy probe returns its
mapped symbol unchanged. -/
theorem empty_query_shortest_alias_witness :
    ∃ k v, firstMinLen (dictKeys STATIC_TICKER_MAP) = some k ∧
      dictLookup STATIC_TICKER_MAP k = some v ∧
      resolveSymbol STATIC_TICKER_MAP (dictKeys STATIC_TICKER_MAP)
        (Probe.price true) "   ".data = some (suffixStage (Probe.price true) v) :=
  empty_query_shortest_alias STATIC_TICKER_MAP (dictKeys STATIC_TICKER_MAP)
    (Probe.price true) "   ".data (by decide) (by decide) (by decide)
    (by decide)

/-- C10 counterexample: the whitespace query normalizes to empty and
selects AMD, whose mapped symbol is the marker-free AMD; with a raised
probe resolution returns AMD.NS, not the mapped symbol AMD — the claim's
"returns the mapped symbol of the shortest alias" fails as stated. -/
theorem empty_query_counterexample :
    normalizeQuery "  ".data = [] ∧
      firstMinLen (dictKeys STATIC_TICKER_MAP) = some "AMD".data ∧
      dictLookup STATIC_TICKER_MAP "AMD".data = some "AMD".data ∧
      resolveSymbol STATIC_TICKER_MAP (dictKeys STATIC_TICKER_MAP)
        Probe.raised "  ".data = some "AMD.NS".data ∧
      "AMD.NS".data ≠ "AMD".data := by
  refine ⟨by decide, by decide, by decide, by decide, by decide⟩

